import Mathlib

/-!
# Verification of the plod schema-driven binary codec

This file embeds the codec logic that the `plod` derive crate
(`derive/src/lib.rs`) generates for a user type, together with the runtime
primitive layer, and proves/refutes the specified properties against it.

The derive crate walks a struct/enum declaration and emits three operations:
`size`, `read_from` and `write_to`.  We embed the *generated* behaviour as an
interpreter over an explicit schema type `Ty` (the spec itself describes the
engine as a schema-interpretation layer, so the embedding is the generated
code's meaning, one constructor per shape the generator distinguishes).

Bytes are modelled as `Nat` (each produced byte is `< 256` by construction),
machine integers as their unsigned byte pattern (a `Nat` reduced mod `2^(8*w)`
exactly where the code's `as` casts truncate).
-/

namespace Plod

/-- Byte order selector.  The runtime offers big, little and native endian;
native is whichever of the two the host uses, so the model keeps the two
concrete orders. -/
inductive Endian where
  | big : Endian
  | little : Endian
deriving DecidableEq, Repr

/-- The primitive types accepted by `supported_type` in `derive/src/lib.rs`
(`bool`, `f32`, `f64`, `i8`..`i64`, `u8`..`u64`).  Only the wire width of a
primitive matters to the codec; values are carried as their byte pattern. -/
inductive PrimTy where
  | bool : PrimTy
  | f32 : PrimTy
  | f64 : PrimTy
  | i8 : PrimTy
  | i16 : PrimTy
  | i32 : PrimTy
  | i64 : PrimTy
  | u8 : PrimTy
  | u16 : PrimTy
  | u32 : PrimTy
  | u64 : PrimTy
deriving DecidableEq, Repr

/-- Width in bytes of each supported primitive — `known_size` in
`derive/src/lib.rs`. -/
def known_size : PrimTy → Nat
  | .bool => 1
  | .f32 => 4
  | .f64 => 8
  | .i8 => 1
  | .i16 => 2
  | .i32 => 4
  | .i64 => 8
  | .u8 => 1
  | .u16 => 2
  | .u32 => 4
  | .u64 => 8

/-- Modelled from the spec: big-endian byte serialization of a `w`-byte
primitive (§4.1 Primitive Codec; the runtime files `src/endian.rs` and
`src/primitive.rs` are not among the provided sources, only their behaviour
is specified: fixed-width read/write under a selectable byte order).  The
most significant byte comes first; a value wider than `w` bytes is truncated
to its low `w` bytes, matching the wrapping `as` casts in the generated
code. -/
def beBytes : Nat → Nat → List Nat
  | 0, _ => []
  | w + 1, v => beBytes w (v / 256) ++ [v % 256]

/-- Modelled from the spec: little-endian serialization is the byte reversal
of big-endian (least significant byte first). -/
def leBytes (w : Nat) (v : Nat) : List Nat :=
  (beBytes w v).reverse

/-- Modelled from the spec: write one primitive value of width `w` under the
selected byte order (`encode_primitive`). -/
def encPrim (e : Endian) (w : Nat) (v : Nat) : List Nat :=
  match e with
  | .big => beBytes w v
  | .little => leBytes w v

/-- Value of a big-endian byte string. -/
def beVal (bs : List Nat) : Nat :=
  bs.foldl (fun n b => n * 256 + b) 0

/-- Value of a byte string under the given order. -/
def valOf (e : Endian) (bs : List Nat) : Nat :=
  match e with
  | .big => beVal bs
  | .little => beVal bs.reverse

/-- Modelled from the spec: read one primitive value of width `w`
(`decode_primitive`); `none` models the underlying stream's end-of-input
I/O error. -/
def decPrim (e : Endian) (w : Nat) (input : List Nat) : Option (Nat × List Nat) :=
  if w ≤ input.length then some (valOf e (input.take w), input.drop w) else none

theorem beBytes_length (w v : Nat) : (beBytes w v).length = w := by
  induction w generalizing v with
  | zero => rfl
  | succ w ih => simp [beBytes, ih]

theorem leBytes_length (w v : Nat) : (leBytes w v).length = w := by
  simp [leBytes, beBytes_length]

theorem encPrim_length (e : Endian) (w v : Nat) : (encPrim e w v).length = w := by
  cases e <;> simp [encPrim, beBytes_length, leBytes_length]

theorem beVal_beBytes (w v : Nat) (h : v < 256 ^ w) : beVal (beBytes w v) = v := by
  induction w generalizing v with
  | zero =>
    simp [pow_zero] at h
    simp [beBytes, beVal, h]
  | succ w ih =>
    have hdiv : v / 256 < 256 ^ w := by
      rw [Nat.div_lt_iff_lt_mul (by norm_num : 0 < 256)]
      calc v < 256 ^ (w + 1) := h
        _ = 256 ^ w * 256 := by ring
    have hfold : beVal (beBytes w (v / 256) ++ [v % 256])
        = beVal (beBytes w (v / 256)) * 256 + v % 256 := by
      simp [beVal, List.foldl_append]
    simp only [beBytes, hfold, ih _ hdiv]
    omega

/-- Decoding the bytes written for a primitive value within range returns the
value and leaves the remainder untouched. -/
theorem decPrim_encPrim (e : Endian) (w v : Nat) (rest : List Nat) (h : v < 256 ^ w) :
    decPrim e w (encPrim e w v ++ rest) = some (v, rest) := by
  have hlen : (encPrim e w v).length = w := encPrim_length e w v
  have htake : (encPrim e w v ++ rest).take w = encPrim e w v :=
    List.take_left' hlen
  have hdrop : (encPrim e w v ++ rest).drop w = rest :=
    List.drop_left' hlen
  have hval : valOf e (encPrim e w v) = v := by
    cases e with
    | big => simpa [valOf, encPrim] using beVal_beBytes w v h
    | little => simpa [valOf, encPrim, leBytes] using beVal_beBytes w v h
  simp [decPrim, htake, hdrop, hval]
  omega

/-! ## Schema model

`Ty` is the shape information the derive walks: the supported primitive
idents, `Vec<elem>` fields together with their resolved `size_type` and
`byte_sized` attributes (`generate_for_item`), structs, and enums with their
`tag_type` and variant list (`plod_impl`).  Field lists and variant lists are
represented inside the same inductive (`fnil`/`fcons`, `vnil`/`vcons`) so the
whole family is one structurally recursive type; `valid` below checks that
the list constructors occur only in list position.  A `vcons` carries the
variant's `tag` literal (as its byte pattern; `none` is a variant without a
`#[plod(tag(..))]` attribute, i.e. the wildcard/default arm), its `keep_tag`
flag, whether the variant is a unit variant (`Fields::Unit`), its payload
field list, and the remaining variants. -/
inductive Ty where
  | prim : PrimTy → Ty
  | vec : PrimTy → Bool → Ty → Ty
  | strukt : Ty → Ty
  | enum : PrimTy → Ty → Ty
  | fnil : Ty
  | fcons : Ty → Ty → Ty
  | vnil : Ty
  | vcons : Option Nat → Bool → Bool → Ty → Ty → Ty
deriving DecidableEq, Repr

/-- Runtime values of schema-described types.  A primitive value is its byte
pattern; `structV` holds a field list in declaration order; `varV i vs` is
the `i`-th declared enum variant with its payload fields. -/
inductive Val where
  | prim : Nat → Val
  | vecV : List Val → Val
  | structV : List Val → Val
  | varV : Nat → List Val → Val
deriving Repr

/-- Outcomes other than success a generated `read_from` can have.  `eof`
models an `std::io::Error` from the underlying reader running dry;
`invalidChar` models `BinaryError::InvalidChar`, the error the generated code
returns for an enum discriminant matching no arm (the only decode error the
derive in `derive/src/lib.rs` ever constructs itself).  `underflow` marks the
execution in which the byte-sized sequence loop evaluates `size -= item_size`
with `item_size > size`: a `usize` subtraction overflow, i.e. a panic in a
debug build, not an error return.  `divergence` marks the execution in which
that loop can never reach `size == 0` because the element size is `0`: the
generated loop does not terminate.  `badMagic` is produced only by the
spec-modelled magic validation below, never by the derived code in the
sources. -/
inductive DErr where
  | eof : DErr
  | invalidChar : DErr
  | underflow : DErr
  | divergence : DErr
  | badMagic : DErr
deriving DecidableEq, Repr

/-- Decoding context threaded into a sub-decode.  `tagSub d` is the keep-tag
substitution: the generated `let field = discriminant;` used for the first
payload field of a `keep_tag` variant (honoured only when that field is a
supported primitive, exactly as `generate_for_item` only checks `is_tag` in
its primitive branch).  `arm d` drives the generated `match discriminant`
over the remaining variant arms in declaration order. -/
inductive DecCtx where
  | none : DecCtx
  | tagSub : Nat → DecCtx
  | arm : Nat → DecCtx
deriving DecidableEq, Repr

/-- The `keep_tag` flag of variant `i` of a variant list. -/
def keepTagAt : Ty → Nat → Bool
  | .vcons _ kt _ _ _, 0 => kt
  | .vcons _ _ _ _ rest, i + 1 => keepTagAt rest i
  | _, _ => false

/-- The declared tag literal of variant `i` of a variant list. -/
def tagAt : Ty → Nat → Option Nat
  | .vcons tag _ _ _ _, 0 => tag
  | .vcons _ _ _ _ rest, i + 1 => tagAt rest i
  | _, _ => Option.none

/-- The payload field list of variant `i` of a variant list. -/
def fieldsAt : Ty → Nat → Ty
  | .vcons _ _ _ fs _, 0 => fs
  | .vcons _ _ _ _ rest, i + 1 => fieldsAt rest i
  | _, _ => .fnil

/-- Number of variants in a variant list. -/
def numVars : Ty → Nat
  | .vcons _ _ _ _ rest => numVars rest + 1
  | _ => 0

/-- First variant arm matching discriminant `d`, in declaration order, with
its index, `keep_tag` flag and payload fields.  A declared literal matches by
equality; a variant without a tag is the wildcard `_` arm and matches
anything — exactly the `match` the derive emits. -/
def findArm : Ty → Nat → Option (Nat × Bool × Ty)
  | .vcons tag kt _ fs rest, d =>
    match tag with
    | some t =>
      if t = d then some (0, kt, fs)
      else (findArm rest d).map (fun x => (x.1 + 1, x.2.1, x.2.2))
    | Option.none => some (0, kt, fs)
  | _, _ => Option.none

/-- Field values carried by a decoded field list. -/
def asFields : Val → List Val
  | .structV vs => vs
  | _ => []

/-- Whether a variant's emitted `match` arm accepts discriminant `d`: a
declared literal matches by equality, a tag-less variant is the wildcard
arm. -/
def armMatches (tag : Option Nat) (d : Nat) : Bool :=
  match tag with
  | some t => t == d
  | Option.none => true

/-- The generated `size()` body.  For a struct or enum it is the whole
method; for a field shape it is that field's contribution inside
`generate_for_item`.  Faithful to the source, a `Vec` field contributes
`self.field.len()`, or the fold of its elements' sizes when `byte_sized` —
in neither mode is the width of the written length prefix included.  An enum
variant contributes its fields' sizes plus the tag width, or plus `0` under
`keep_tag` (`generate_for_fields` appends that final summand; the model adds
it at the `enum` node, which regroups the same sum).  Shape mismatches that
the host type system makes unrepresentable default to `0`. -/
def tySize : Ty → Val → Nat
  | .prim p, _ => known_size p
  | .vec _ bs elem, .vecV items =>
    if bs then items.foldl (fun n it => n + tySize elem it) 0 else items.length
  | .vec _ _ _, _ => 0
  | .strukt fs, v => tySize fs v
  | .fnil, _ => 0
  | .fcons t fs, .structV (v :: vs) => tySize t v + tySize fs (.structV vs)
  | .fcons _ _, _ => 0
  | .enum tt vars, .varV i vs =>
    tySize vars (.varV i vs) + (if keepTagAt vars i then 0 else known_size tt)
  | .enum _ _, _ => 0
  | .vnil, _ => 0
  | .vcons _ _ _ fs _, .varV 0 vs => tySize fs (.structV vs)
  | .vcons _ _ _ _ rest, .varV (i + 1) vs => tySize rest (.varV i vs)
  | .vcons _ _ _ _ _, _ => 0

/-- The generated `write_to` body, producing the bytes written on success
(writes to an in-memory buffer cannot fail in the generated code; the length
prefix is written through the wrapping `as size_type` cast, which `encPrim`
reproduces by truncating to the prefix width).  A non-`keep_tag` variant
first writes its declared tag literal (`to.write_<tag_type>(tag)`), a
`keep_tag` variant writes no separate discriminant. -/
def tyEnc (e : Endian) : Ty → Val → List Nat
  | .prim p, .prim n => encPrim e (known_size p) n
  | .prim _, _ => []
  | .vec st bs elem, .vecV items =>
    (if bs then encPrim e (known_size st) (items.foldl (fun n it => n + tySize elem it) 0)
     else encPrim e (known_size st) items.length)
      ++ (items.map (tyEnc e elem)).flatten
  | .vec _ _ _, _ => []
  | .strukt fs, v => tyEnc e fs v
  | .fnil, _ => []
  | .fcons t fs, .structV (v :: vs) => tyEnc e t v ++ tyEnc e fs (.structV vs)
  | .fcons _ _, _ => []
  | .enum tt vars, .varV i vs =>
    (if keepTagAt vars i then []
     else encPrim e (known_size tt) ((tagAt vars i).getD 0))
      ++ tyEnc e vars (.varV i vs)
  | .enum _ _, _ => []
  | .vnil, _ => []
  | .vcons _ _ _ fs _, .varV 0 vs => tyEnc e fs (.structV vs)
  | .vcons _ _ _ _ rest, .varV (i + 1) vs => tyEnc e rest (.varV i vs)
  | .vcons _ _ _ _ _, _ => []

/-- The count-prefixed sequence read loop: `for _ in 0..size` decode one
element and push it. -/
def vecDecN (dec : List Nat → Except DErr (Val × List Nat)) :
    Nat → List Nat → Except DErr (List Val × List Nat)
  | 0, input => .ok ([], input)
  | n + 1, input =>
    match dec input with
    | .error err => .error err
    | .ok (v, rest) =>
      match vecDecN dec n rest with
      | .error err => .error err
      | .ok (vs, rest2) => .ok (v :: vs, rest2)

/-- The byte-sized sequence read loop: `while size > 0` decode one element,
push it, and evaluate `size -= item_size`.  The loop body never checks the
budget, so `item_size > size` overflows the `usize` subtraction
(`DErr.underflow`), and an element of size `0` keeps the loop running forever
(`DErr.divergence`).  `fuel` is a modelling artifact making the recursion
structural; since every accounted element has positive size, a fuel equal to
the initial budget is never exhausted before one of the genuine exits. -/
def vecDecB (dec : List Nat → Except DErr (Val × List Nat)) (szOf : Val → Nat) :
    Nat → Nat → List Nat → Except DErr (List Val × List Nat)
  | _, 0, input => .ok ([], input)
  | 0, _ + 1, _ => .error .divergence
  | fuel + 1, size + 1, input =>
    match dec input with
    | .error err => .error err
    | .ok (v, rest) =>
      let s := szOf v
      if s = 0 then .error .divergence
      else if size + 1 < s then .error .underflow
      else
        match vecDecB dec szOf fuel (size + 1 - s) rest with
        | .error err => .error err
        | .ok (vs, rest2) => .ok (v :: vs, rest2)

/-- The generated `read_from` body.  `ctx` is `DecCtx.none` at a top-level
call; the enum case reads the discriminant with the declared tag type and
then walks its arms with `DecCtx.arm`, and a matching `keep_tag` arm decodes
its fields under `DecCtx.tagSub` so that a leading primitive field is taken
from the discriminant without consuming stream bytes. -/
def tyDec (e : Endian) : DecCtx → Ty → List Nat → Except DErr (Val × List Nat)
  | .tagSub d, .prim _, input => .ok (.prim d, input)
  | _, .prim p, input =>
    match decPrim e (known_size p) input with
    | Option.none => .error .eof
    | some (n, rest) => .ok (.prim n, rest)
  | _, .vec st bs elem, input =>
    match decPrim e (known_size st) input with
    | Option.none => .error .eof
    | some (n, rest) =>
      if bs then
        match vecDecB (tyDec e .none elem) (tySize elem) n n rest with
        | .error err => .error err
        | .ok (items, rest2) => .ok (.vecV items, rest2)
      else
        match vecDecN (tyDec e .none elem) n rest with
        | .error err => .error err
        | .ok (items, rest2) => .ok (.vecV items, rest2)
  | _, .strukt fs, input => tyDec e .none fs input
  | _, .fnil, input => .ok (.structV [], input)
  | ctx, .fcons t fs, input =>
    match tyDec e ctx t input with
    | .error err => .error err
    | .ok (v, rest) =>
      match tyDec e .none fs rest with
      | .error err => .error err
      | .ok (w, rest2) => .ok (.structV (v :: asFields w), rest2)
  | _, .enum tt vars, input =>
    match decPrim e (known_size tt) input with
    | Option.none => .error .eof
    | some (d, rest) => tyDec e (.arm d) vars rest
  | .arm _, .vnil, _ => .error .invalidChar
  | .arm d, .vcons tag kt _ fs rest, input =>
    if armMatches tag d then
      match tyDec e (if kt then .tagSub d else .none) fs input with
      | .error err => .error err
      | .ok (w, rest2) => .ok (.varV 0 (asFields w), rest2)
    else
      match tyDec e (.arm d) rest input with
      | .error err => .error err
      | .ok (.varV i vs, rest2) => .ok (.varV (i + 1) vs, rest2)
      | .ok (w, rest2) => .ok (w, rest2)
  | _, .vnil, _ => .error .invalidChar
  | _, .vcons _ _ _ _ _, _ => .error .invalidChar

/-! ## Derive-time checks

The derive rejects some declarations with a compile error before any codec
code exists (`syn::Error` in `plod_impl` / `generate_for_fields`).  `valid`
collects those checks; a decode/encode of an invalid schema never starts. -/

/-- True for the shapes that can stand as a type (a field's type, a `Vec`
element, a nested `Plod` type). -/
def isTypeLike : Ty → Bool
  | .prim _ => true
  | .vec _ _ _ => true
  | .strukt _ => true
  | .enum _ _ => true
  | _ => false

/-- True for the field-list spine constructors. -/
def isFieldList : Ty → Bool
  | .fnil => true
  | .fcons _ _ => true
  | _ => false

/-- True for the variant-list spine constructors. -/
def isVarList : Ty → Bool
  | .vnil => true
  | .vcons _ _ _ _ _ => true
  | _ => false

/-- True for the empty variant list. -/
def isVnil : Ty → Bool
  | .vnil => true
  | _ => false

/-- True for the empty field list. -/
def isFnil : Ty → Bool
  | .fnil => true
  | _ => false

/-- Every declared tag literal fits the tag type's width (a wider literal in
a `match` arm of the narrower discriminant type would not compile in the
generated code). -/
def tagsInRange (w : Nat) : Ty → Bool
  | .vcons tag _ _ _ rest =>
    (match tag with
     | some t => decide (t < 256 ^ w)
     | Option.none => true) && tagsInRange w rest
  | _ => true

/-- The derive-time validity of a schema:
* `!(u && kt)` — "Cannot keep tag on unit variant" (`generate_for_fields`);
* `kt || tag.isSome` — "#[plod(tag(<value>)] is mandatory without keep_tag"
  (`plod_impl`, write arm generation);
* a unit variant carries no fields;
* `tag.isSome || isVnil rest` — "The variant without #[plod(tag(<value>)]
  must come last" (`plod_impl`, the `default_done` check, which also rejects
  a second default variant);
* list spines appear only in list position, and everything is recursively
  valid.  An enum's mandatory `tag_type` and the `supported_type` check are
  built into `Ty.enum` carrying a `PrimTy`, and a `Vec` field's mandatory
  `size_type` into `Ty.vec` (`resolveItem` below models their absence). -/
def valid : Ty → Bool
  | .prim _ => true
  | .vec _ _ elem => isTypeLike elem && valid elem
  | .strukt fs => isFieldList fs && valid fs
  | .enum tt vars => isVarList vars && tagsInRange (known_size tt) vars && valid vars
  | .fnil => true
  | .fcons t fs => isTypeLike t && valid t && isFieldList fs && valid fs
  | .vnil => true
  | .vcons tag kt u fs rest =>
    !(u && kt) && (kt || tag.isSome) && (!u || isFnil fs) && (tag.isSome || isVnil rest)
      && isFieldList fs && valid fs && isVarList rest && valid rest

/-- Width of the leading field of a field list when that field is a
supported primitive. -/
def headPrimW : Ty → Option Nat
  | .fcons (.prim p) _ => some (known_size p)
  | _ => Option.none

/-- The leading payload value when it is a primitive. -/
def headDisc : List Val → Option Nat
  | .prim n :: _ => some n
  | _ => Option.none

/-- Well-typedness of a value for a schema together with the side conditions
under which the generated codec can reproduce it (the amended round-trip
claim):
* primitive byte patterns fit their width;
* a sequence's written length prefix must not wrap: the element count
  (resp. the byte-size fold when `byte_sized`) fits the `size_type` width;
* each element of a `byte_sized` sequence has positive accounted size (the
  read loop stops at budget `0` and would never terminate on size-`0`
  elements);
* the discriminant a variant transmits must select that same variant when
  read back: the declared tag literal for a plain variant, the leading
  payload field for a `keep_tag` variant — which must be a primitive exactly
  as wide as the tag type, since decode substitutes the raw discriminant for
  it.  Values outside these conditions exist for the host types; the
  counterexamples below show the round-trip genuinely fails on them. -/
def goodVal : Ty → Val → Bool
  | .prim p, .prim n => decide (n < 256 ^ known_size p)
  | .prim _, _ => false
  | .vec st bs elem, .vecV items =>
    items.all (fun it => goodVal elem it)
      && (if bs then
            decide ((items.foldl (fun n it => n + tySize elem it) 0) < 256 ^ known_size st)
              && items.all (fun it => decide (0 < tySize elem it))
          else decide (items.length < 256 ^ known_size st))
  | .vec _ _ _, _ => false
  | .strukt fs, v => goodVal fs v
  | .fnil, .structV [] => true
  | .fnil, _ => false
  | .fcons t fs, .structV (v :: vs) => goodVal t v && goodVal fs (.structV vs)
  | .fcons _ _, _ => false
  | .enum tt vars, .varV i vs =>
    goodVal vars (.varV i vs)
      && (if keepTagAt vars i then
            (headPrimW (fieldsAt vars i) == some (known_size tt))
              && (match headDisc vs with
                  | some d => (findArm vars d).map (fun x => x.1) == some i
                  | Option.none => false)
          else
            match tagAt vars i with
            | some t => (findArm vars t).map (fun x => x.1) == some i
            | Option.none => false)
  | .enum _ _, _ => false
  | .vnil, _ => false
  | .vcons _ _ _ fs _, .varV 0 vs => goodVal fs (.structV vs)
  | .vcons _ _ _ _ rest, .varV (i + 1) vs => goodVal rest (.varV i vs)
  | .vcons _ _ _ _ _, _ => false

/-! ## Specification-side variant selection

Spec §4.4 words the decode dispatch as: evaluate each variant's tag-match
rule in declaration order, first match selects; if none matches, fall back to
the declared default variant if present; otherwise fail.  `specSelect` is
that two-pass description; the implementation (`findArm`, the emitted `match`
with the default as a wildcard arm in its declared position) agrees with it
exactly because a default variant must be declared last. -/

/-- Bump the variant index of a selection result. -/
def bumpIdx (r : Option (Nat × Bool × Ty)) : Option (Nat × Bool × Ty) :=
  r.map (fun x => (x.1 + 1, x.2.1, x.2.2))

/-- First pass: only declared tag-match rules, in declaration order. -/
def specMatch : Ty → Nat → Option (Nat × Bool × Ty)
  | .vcons tag kt _ fs rest, d =>
    match tag with
    | some t => if t = d then some (0, kt, fs) else bumpIdx (specMatch rest d)
    | Option.none => bumpIdx (specMatch rest d)
  | _, _ => Option.none

/-- Second pass: the declared default (tag-less) variant, if any. -/
def specDefault : Ty → Option (Nat × Bool × Ty)
  | .vcons tag kt _ fs rest =>
    match tag with
    | some _ => bumpIdx (specDefault rest)
    | Option.none => some (0, kt, fs)
  | _ => Option.none

/-- Spec §4.4 selection: rules first, then the default fallback. -/
def specSelect (vars : Ty) (d : Nat) : Option (Nat × Bool × Ty) :=
  match specMatch vars d with
  | some r => some r
  | Option.none => specDefault vars

/-! ## Attribute resolution (`generate_for_item`'s type dispatch) -/

/-- The `#[plod(..)]` attribute state of `derive/src/lib.rs`'s `Attributes`,
as accumulated for one field (enum/struct level values already merged in by
`Attributes::extend`).  `keep_diff` is parsed but always reset to `None` by
the implementation (a `TODO`). -/
structure Attributes where
  tag_type : Option PrimTy
  tag : Option Nat
  keep_tag : Bool
  keep_diff : Option Int
  size_type : Option PrimTy
  byte_sized : Bool
deriving DecidableEq, Repr

/-- The syntactic type of a field as `generate_for_item` dispatches on it: a
supported primitive ident, `Vec<inner>`, or any other path type (delegated to
that type's own `Plod` impl, whose schema is `t`). -/
inductive FieldTy where
  | path : PrimTy → FieldTy
  | vecOf : FieldTy → FieldTy
  | other : Ty → FieldTy
deriving DecidableEq, Repr

/-- The schema a field resolves to.  `Option.none` is the derive error
"#[plod(size_type(<value>)] is mandatory for Vec<type>".  For a `Vec` field
the element is resolved with the very same `Attributes` value (the recursive
`generate_for_item` call passes `attributes` through unchanged), so a nested
`Vec<Vec<T>>` necessarily reuses the enclosing field's `size_type` and
`byte_sized` mode — the attribute surface offers no way to address the inner
sequence separately. -/
def resolveItem : FieldTy → Attributes → Option Ty
  | .path p, _ => some (.prim p)
  | .vecOf inner, a =>
    match a.size_type with
    | Option.none => Option.none
    | some st => (resolveItem inner a).map (fun t => .vec st a.byte_sized t)
  | .other t, _ => some t

/-! ## Magic validation (spec §4.6) -/

/-- Modelled from the spec: magic-literal validation (§4.6).  The magic
feature appears in the repository's tests and spec, but its implementation is
not among the provided sources — the derive parser in `derive/src/lib.rs`
does not handle a `magic` attribute.  Decode reads the literal's position
with the declared primitive codec and compares: a mismatch is the dedicated
bad-magic decode error and no value is produced; on a match the rest of the
record decodes from the remaining stream. -/
def magicDec (e : Endian) (p : PrimTy) (lit : Nat)
    (body : List Nat → Except DErr (Val × List Nat)) (input : List Nat) :
    Except DErr (Val × List Nat) :=
  match decPrim e (known_size p) input with
  | Option.none => .error .eof
  | some (d, rest) => if d = lit then body rest else .error .badMagic

/-- Modelled from the spec: encode always writes the declared magic literal
before the record body. -/
def magicEnc (e : Endian) (p : PrimTy) (lit : Nat) (bodyBytes : List Nat) : List Nat :=
  encPrim e (known_size p) lit ++ bodyBytes

/-- Modelled from the spec: the size of a record with a magic literal always
includes the literal's width. -/
def magicSize (p : PrimTy) (bodySize : Nat) : Nat :=
  known_size p + bodySize

/-! ## Schema-error shapes for the default-variant rules -/

/-- A variant list in which some tag-less variant is followed by at least one
further variant (a non-terminal default; a list with two defaults contains
one).  Spec §7 calls this shape a `SchemaError`. -/
def hasEarlyDefault : Ty → Bool
  | .vcons tag _ _ _ rest =>
    (match tag with
     | Option.none => !isVnil rest
     | some _ => false) || hasEarlyDefault rest
  | _ => false

/-- A variant list containing a variant with neither a tag-match rule nor
`keep_tag` — in particular any zero-field default variant. -/
def hasTaglessNoKeep : Ty → Bool
  | .vcons Option.none false _ _ _ => true
  | .vcons _ _ _ _ rest => hasTaglessNoKeep rest
  | _ => false

/-! ## Structural lemmas -/

theorem isVarList_of_isFieldList {t : Ty} (h : isFieldList t = true) :
    isVarList t = false := by
  cases t <;> simp_all [isFieldList, isVarList]

theorem isVarList_of_isTypeLike {t : Ty} (h : isTypeLike t = true) :
    isVarList t = false := by
  cases t <;> simp_all [isTypeLike, isVarList]

theorem eq_vnil_of_isVnil {t : Ty} (h : isVnil t = true) : t = .vnil := by
  cases t <;> simp_all [isVnil]

@[simp] theorem bumpIdx_none : bumpIdx Option.none = Option.none := rfl

@[simp] theorem bumpIdx_some (x : Nat × Bool × Ty) :
    bumpIdx (some x) = some (x.1 + 1, x.2.1, x.2.2) := rfl

@[simp] theorem bumpIdx_eq_map (o : Option (Nat × Bool × Ty)) :
    bumpIdx o = o.map (fun x => (x.1 + 1, x.2)) := by
  cases o <;> rfl

@[simp] theorem armMatches_some (t d : Nat) : armMatches (some t) d = (t == d) := rfl

@[simp] theorem armMatches_none (d : Nat) : armMatches Option.none d = true := rfl

/-- A successful arm lookup reports the looked-up variant's own `keep_tag`
flag and payload fields, at an index inside the list. -/
theorem findArm_spec {vars : Ty} {d i : Nat} {kt : Bool} {fs : Ty}
    (h : findArm vars d = some (i, kt, fs)) :
    kt = keepTagAt vars i ∧ fs = fieldsAt vars i ∧ i < numVars vars := by
  induction vars generalizing i with
  | vcons tag kt0 u fs0 rest ihf ihr =>
    match tag with
    | some t =>
      by_cases ht : t = d
      · simp only [findArm, ht, if_pos rfl] at h
        obtain ⟨rfl, rfl, rfl⟩ : i = 0 ∧ kt = kt0 ∧ fs = fs0 := by
          simpa using h.symm
        simp [keepTagAt, fieldsAt, numVars]
      · simp only [findArm, if_neg ht] at h
        rw [Option.map_eq_some'] at h
        obtain ⟨⟨j, k2, f2⟩, hrest, heq⟩ := h
        obtain ⟨rfl, rfl, rfl⟩ : i = j + 1 ∧ kt = k2 ∧ fs = f2 := by
          simpa using heq.symm
        obtain ⟨h1, h2, h3⟩ := ihr hrest
        refine ⟨?_, ?_, ?_⟩ <;> simp [keepTagAt, fieldsAt, numVars, h1, h2, h3]
    | Option.none =>
      simp only [findArm] at h
      obtain ⟨rfl, rfl, rfl⟩ : i = 0 ∧ kt = kt0 ∧ fs = fs0 := by
        simpa using h.symm
      simp [keepTagAt, fieldsAt, numVars]
  | prim p => simp [findArm] at h
  | vec st bs elem ih => simp [findArm] at h
  | strukt fs ih => simp [findArm] at h
  | enum tt vars ih => simp [findArm] at h
  | fnil => simp [findArm] at h
  | fcons t fs iht ihf => simp [findArm] at h
  | vnil => simp [findArm] at h

/-- A good variant value of a variant list addresses an actual variant and
carries a good payload for it. -/
theorem goodVal_varV {vars : Ty} {i : Nat} {vs : List Val}
    (hL : isVarList vars = true) (hv : valid vars = true)
    (hg : goodVal vars (.varV i vs) = true) :
    i < numVars vars ∧ goodVal (fieldsAt vars i) (.structV vs) = true := by
  induction vars generalizing i with
  | vcons tag kt0 u fs0 rest ihf ihr =>
    simp only [valid, Bool.and_eq_true] at hv
    obtain ⟨⟨⟨⟨⟨⟨⟨h1, h2⟩, h3⟩, h4⟩, h5⟩, h6⟩, h7⟩, h8⟩ := hv
    match i with
    | 0 =>
      simp only [goodVal] at hg
      exact ⟨by simp [numVars], by simpa [fieldsAt] using hg⟩
    | i + 1 =>
      simp only [goodVal] at hg
      obtain ⟨ha, hb⟩ := ihr h7 h8 hg
      exact ⟨by simp [numVars]; omega, by simpa [fieldsAt] using hb⟩
  | vnil => simp [goodVal] at hg
  | prim p => simp [isVarList] at hL
  | vec st bs elem ih => simp [isVarList] at hL
  | strukt fs ih => simp [isVarList] at hL
  | enum tt vars ih => simp [isVarList] at hL
  | fnil => simp [isVarList] at hL
  | fcons t fs iht ihf => simp [isVarList] at hL

/-- The payload field list of an addressed variant of a valid variant list
is a valid field list. -/
theorem valid_fieldsAt {vars : Ty} {i : Nat}
    (hv : valid vars = true) (hi : i < numVars vars) :
    isFieldList (fieldsAt vars i) = true ∧ valid (fieldsAt vars i) = true := by
  induction vars generalizing i with
  | vcons tag kt0 u fs0 rest ihf ihr =>
    simp only [valid, Bool.and_eq_true] at hv
    obtain ⟨⟨⟨⟨⟨⟨⟨h1, h2⟩, h3⟩, h4⟩, h5⟩, h6⟩, h7⟩, h8⟩ := hv
    match i with
    | 0 => exact ⟨h5, h6⟩
    | i + 1 =>
      simp only [numVars] at hi
      exact ihr h8 (by omega)
  | prim p => simp [numVars] at hi
  | vec st bs elem ih => simp [numVars] at hi
  | strukt fs ih => simp [numVars] at hi
  | enum tt vars ih => simp [numVars] at hi
  | fnil => simp [numVars] at hi
  | fcons t fs iht ihf => simp [numVars] at hi
  | vnil => simp [numVars] at hi

/-- Encoding a variant value of a variant list is encoding its payload
against the addressed variant's fields (the per-variant `write_code`,
without the enum-level tag write). -/
theorem tyEnc_varV (e : Endian) {vars : Ty} {i : Nat} {vs : List Val}
    (hi : i < numVars vars) :
    tyEnc e vars (.varV i vs) = tyEnc e (fieldsAt vars i) (.structV vs) := by
  induction vars generalizing i with
  | vcons tag kt0 u fs0 rest ihf ihr =>
    match i with
    | 0 => simp [tyEnc, fieldsAt]
    | i + 1 =>
      simp only [numVars] at hi
      simpa [tyEnc, fieldsAt] using ihr (by omega)
  | prim p => simp [numVars] at hi
  | vec st bs elem ih => simp [numVars] at hi
  | strukt fs ih => simp [numVars] at hi
  | enum tt vars ih => simp [numVars] at hi
  | fnil => simp [numVars] at hi
  | fcons t fs iht ihf => simp [numVars] at hi
  | vnil => simp [numVars] at hi

/-- Declared tag literals of a range-checked variant list fit the tag
width. -/
theorem tagsInRange_tagAt {w : Nat} {vars : Ty} {i t : Nat}
    (hr : tagsInRange w vars = true) (ht : tagAt vars i = some t) :
    t < 256 ^ w := by
  induction vars generalizing i with
  | vcons tag kt0 u fs0 rest ihf ihr =>
    simp only [tagsInRange, Bool.and_eq_true] at hr
    match i with
    | 0 =>
      simp only [tagAt] at ht
      subst ht
      simpa using hr.1
    | i + 1 =>
      simp only [tagAt] at ht
      exact ihr hr.2 ht
  | prim p => simp [tagAt] at ht
  | vec st bs elem ih => simp [tagAt] at ht
  | strukt fs ih => simp [tagAt] at ht
  | enum tt vars ih => simp [tagAt] at ht
  | fnil => simp [tagAt] at ht
  | fcons t2 fs iht ihf => simp [tagAt] at ht
  | vnil => simp [tagAt] at ht

/-- Shift the accumulator out of the size fold. -/
theorem foldl_add_init (f : Val → Nat) (c : Nat) (l : List Val) :
    l.foldl (fun n it => n + f it) c = c + l.foldl (fun n it => n + f it) 0 := by
  induction l generalizing c with
  | nil => simp
  | cons a l ih =>
    simp only [List.foldl_cons]
    rw [ih (c + f a), ih (0 + f a)]
    omega

/-- The count-mode read loop recovers the encoded elements when each
element's decoder recovers its encoding. -/
theorem vecDecN_append (dec : List Nat → Except DErr (Val × List Nat))
    (enc : Val → List Nat) (items : List Val) (rest : List Nat)
    (hdec : ∀ it ∈ items, ∀ r, dec (enc it ++ r) = .ok (it, r)) :
    vecDecN dec items.length ((items.map enc).flatten ++ rest) = .ok (items, rest) := by
  induction items generalizing rest with
  | nil => simp [vecDecN]
  | cons a l ih =>
    have ha := hdec a (by simp) ((l.map enc).flatten ++ rest)
    have hih := ih rest (fun it hit r => hdec it (List.mem_cons_of_mem _ hit) r)
    simp only [List.length_cons, List.map_cons, List.flatten_cons, List.append_assoc, vecDecN,
      ha, hih]

/-- The byte-budget read loop recovers the encoded elements when each
element's decoder recovers its encoding and every element has positive
accounted size; any fuel at least the initial budget behaves alike. -/
theorem vecDecB_append (dec : List Nat → Except DErr (Val × List Nat))
    (szOf : Val → Nat) (enc : Val → List Nat) (items : List Val) (rest : List Nat)
    (fuel : Nat)
    (hdec : ∀ it ∈ items, ∀ r, dec (enc it ++ r) = .ok (it, r))
    (hpos : ∀ it ∈ items, 0 < szOf it)
    (hfuel : items.foldl (fun n it => n + szOf it) 0 ≤ fuel) :
    vecDecB dec szOf fuel (items.foldl (fun n it => n + szOf it) 0)
      ((items.map enc).flatten ++ rest) = .ok (items, rest) := by
  induction items generalizing fuel rest with
  | nil => cases fuel <;> simp [vecDecB]
  | cons a l ih =>
    have hsum : (a :: l).foldl (fun n it => n + szOf it) 0
        = szOf a + l.foldl (fun n it => n + szOf it) 0 := by
      simp only [List.foldl_cons]
      rw [foldl_add_init]
      omega
    have hposa : 0 < szOf a := hpos a (by simp)
    set S := l.foldl (fun n it => n + szOf it) 0 with hS
    rw [hsum] at hfuel ⊢
    obtain ⟨f, rfl⟩ : ∃ f, fuel = f + 1 := ⟨fuel - 1, by omega⟩
    obtain ⟨z, hz⟩ : ∃ z, szOf a + S = z + 1 := ⟨szOf a + S - 1, by omega⟩
    rw [hz]
    have ha := hdec a (by simp) ((l.map enc).flatten ++ rest)
    have hnz : ¬ szOf a = 0 := by omega
    have hnu : ¬ z + 1 < szOf a := by omega
    have harith : z + 1 - szOf a = S := by omega
    have hih := ih rest f (fun it hit r => hdec it (List.mem_cons_of_mem _ hit) r)
      (fun it hit => hpos it (List.mem_cons_of_mem _ hit)) (by omega)
    simp only [List.map_cons, List.flatten_cons, List.append_assoc, vecDecB, ha,
      if_neg hnz, if_neg hnu, harith, hih]

/-- The emitted `match discriminant { .. }` over the variant arms, walked in
declaration order, is arm lookup followed by payload decoding (with the
keep-tag substitution exactly for a matching `keep_tag` arm). -/
theorem tyDec_arm (e : Endian) (d : Nat) (vars : Ty) (input : List Nat)
    (hL : isVarList vars = true) (hv : valid vars = true) :
    tyDec e (.arm d) vars input =
      match findArm vars d with
      | Option.none => .error .invalidChar
      | some (i, kt, fs) =>
        match tyDec e (if kt then .tagSub d else .none) fs input with
        | .error err => .error err
        | .ok (w, r2) => .ok (.varV i (asFields w), r2) := by
  induction vars generalizing input with
  | vcons tag kt0 u fs0 rest ihf ihr =>
    simp only [valid, Bool.and_eq_true] at hv
    obtain ⟨⟨⟨⟨⟨⟨⟨h1, h2⟩, h3⟩, h4⟩, h5⟩, h6⟩, h7⟩, h8⟩ := hv
    match tag with
    | some t =>
      by_cases ht : t = d
      · subst ht
        simp [tyDec, findArm]
      · have hbeq : (t == d) = false := by simp [ht]
        simp only [tyDec, armMatches_some, hbeq, Bool.false_eq_true, if_false]
        rw [ihr input h7 h8]
        cases hfa : findArm rest d with
        | none => simp [findArm, if_neg ht, hfa]
        | some x =>
          obtain ⟨j, k2, f2⟩ := x
          simp only [findArm, if_neg ht, hfa, bumpIdx_some]
          cases hdec : tyDec e (if k2 then .tagSub d else .none) f2 input with
          | error err => simp [hdec]
          | ok w => obtain ⟨w1, r2⟩ := w; simp [hdec]
    | Option.none =>
      simp [tyDec, findArm]
  | vnil => simp [tyDec, findArm]
  | prim p => simp [isVarList] at hL
  | vec st bs elem ih => simp [isVarList] at hL
  | strukt fs ih => simp [isVarList] at hL
  | enum tt vars ih => simp [isVarList] at hL
  | fnil => simp [isVarList] at hL
  | fcons t fs iht ihf => simp [isVarList] at hL

/-- On a valid variant list (default variant declared last), the emitted
wildcard-in-place `match` agrees with the spec's two-pass selection: try
every declared tag-match rule in declaration order, then fall back to the
default variant. -/
theorem findArm_eq_specSelect {vars : Ty} (d : Nat) (hv : valid vars = true) :
    findArm vars d = specSelect vars d := by
  induction vars with
  | vcons tag kt0 u fs0 rest ihf ihr =>
    simp only [valid, Bool.and_eq_true] at hv
    obtain ⟨⟨⟨⟨⟨⟨⟨h1, h2⟩, h3⟩, h4⟩, h5⟩, h6⟩, h7⟩, h8⟩ := hv
    match tag with
    | some t =>
      by_cases ht : t = d
      · subst ht
        simp [findArm, specSelect, specMatch]
      · simp only [findArm, if_neg ht, specSelect, specMatch, ihr h8]
        cases hsm : specMatch rest d with
        | none => simp [specSelect, hsm, specDefault]
        | some x => simp [specSelect, hsm]
    | Option.none =>
      have : rest = .vnil := eq_vnil_of_isVnil (by simpa using h4)
      subst this
      simp [findArm, specSelect, specMatch, specDefault, bumpIdx]
  | vnil => simp [findArm, specSelect, specMatch, specDefault]
  | prim p => simp [findArm, specSelect, specMatch, specDefault]
  | vec st bs elem ih => simp [findArm, specSelect, specMatch, specDefault]
  | strukt fs ih => simp [findArm, specSelect, specMatch, specDefault]
  | enum tt vars ih => simp [findArm, specSelect, specMatch, specDefault]
  | fnil => simp [findArm, specSelect, specMatch, specDefault]
  | fcons t fs iht ihf => simp [findArm, specSelect, specMatch, specDefault]

/-- Tail of a field list. -/
def tailF : Ty → Ty
  | .fcons _ fs => fs
  | t => t

theorem headPrimW_eq_some {t : Ty} {w : Nat} (h : headPrimW t = some w) :
    ∃ p0 fs', t = .fcons (.prim p0) fs' ∧ known_size p0 = w := by
  match t with
  | .fcons (.prim p0) fs' =>
    refine ⟨p0, fs', rfl, ?_⟩
    simpa [headPrimW] using h
  | .prim _ | .vec _ _ _ | .strukt _ | .enum _ _ | .fnil | .vnil | .vcons _ _ _ _ _ =>
    simp [headPrimW] at h
  | .fcons (.vec _ _ _) _ | .fcons (.strukt _) _ | .fcons (.enum _ _) _ | .fcons .fnil _
  | .fcons (.fcons _ _) _ | .fcons .vnil _ | .fcons (.vcons _ _ _ _ _) _ =>
    simp [headPrimW] at h

theorem headDisc_eq_some {vs : List Val} {n : Nat} (h : headDisc vs = some n) :
    ∃ vs', vs = .prim n :: vs' := by
  match vs with
  | .prim m :: vs' =>
    refine ⟨vs', ?_⟩
    simp only [headDisc, Option.some.injEq] at h
    simp [h.symm]
  | [] | .vecV _ :: _ | .structV _ :: _ | .varV _ _ :: _ => simp [headDisc] at h

/-! ## The round-trip induction

`MainRT` is the round-trip statement for a type or field list decoded from
the start of its own encoding; `ArmRT` is its form for the variant-arm walk
(after the discriminant has already been consumed at the enum level);
`TagRT` is its form for a `keep_tag` payload, whose leading primitive field
is substituted from the discriminant rather than read (so its bytes are
absent from the arm input).  The three are proved simultaneously by
structural induction on the schema. -/

/-- Round-trip statement for one schema node. -/
def MainRT (e : Endian) (t : Ty) : Prop :=
  ∀ v rest, valid t = true → goodVal t v = true → isVarList t = false →
    tyDec e .none t (tyEnc e t v ++ rest) = .ok (v, rest)

/-- Shape facts available for a matched `keep_tag` arm: its payload starts
with a primitive field holding exactly the transmitted discriminant. -/
def KTShape (d : Nat) (fs : Ty) (vs : List Val) : Prop :=
  ∃ p0 fs' vs', fs = .fcons (.prim p0) fs' ∧ vs = .prim d :: vs'
    ∧ valid fs' = true ∧ goodVal fs' (.structV vs') = true ∧ isVarList fs' = false

/-- Round-trip statement for the variant-arm walk of a variant list. -/
def ArmRT (e : Endian) (t : Ty) : Prop :=
  ∀ d i kt fs vs rest,
    valid t = true →
    findArm t d = some (i, kt, fs) →
    goodVal t (.varV i vs) = true →
    (kt = true → KTShape d fs vs) →
    tyDec e (.arm d) t
        ((if kt then tyEnc e (tailF fs) (.structV vs.tail) else tyEnc e t (.varV i vs)) ++ rest)
      = .ok (.varV i vs, rest)

/-- Round-trip statement for a `keep_tag` payload under the discriminant
substitution. -/
def TagRT (e : Endian) (t : Ty) : Prop :=
  ∀ d p0 fs', t = .fcons (.prim p0) fs' →
    ∀ vs' rest, valid fs' = true → goodVal fs' (.structV vs') = true →
      isVarList fs' = false →
      tyDec e (.tagSub d) t (tyEnc e fs' (.structV vs') ++ rest)
        = .ok (.structV (.prim d :: vs'), rest)

/-- Every schema node satisfies its three round-trip statements. -/
theorem allRT (e : Endian) (t : Ty) : MainRT e t ∧ ArmRT e t ∧ TagRT e t := by
  induction t with
  | prim p =>
    refine ⟨?_, ?_, ?_⟩
    · intro v rest hv hg hs
      cases v with
      | prim n =>
        simp only [goodVal, decide_eq_true_eq] at hg
        have hdp := decPrim_encPrim e (known_size p) n rest hg
        simp [tyEnc, tyDec, hdp]
      | vecV items => simp [goodVal] at hg
      | structV vs => simp [goodVal] at hg
      | varV i vs => simp [goodVal] at hg
    · intro d i kt fs vs rest hv hfa hg hkt
      simp [findArm] at hfa
    · intro d p0 fs' heq
      simp at heq
  | vec st bs elem ih =>
    refine ⟨?_, ?_, ?_⟩
    · intro v rest hv hg hs
      simp only [valid, Bool.and_eq_true] at hv
      obtain ⟨hvt, hve⟩ := hv
      cases v with
      | vecV items =>
        simp only [goodVal, Bool.and_eq_true] at hg
        obtain ⟨hall, hmode⟩ := hg
        have hdecI : ∀ it ∈ items, ∀ r,
            tyDec e .none elem (tyEnc e elem it ++ r) = .ok (it, r) := by
          intro it hit r
          have hgit : goodVal elem it = true := by
            rw [List.all_eq_true] at hall
            exact hall it hit
          exact ih.1 it r hve hgit (isVarList_of_isTypeLike hvt)
        cases bs with
        | false =>
          simp only [if_false, decide_eq_true_eq, Bool.false_eq_true] at hmode
          have hdp := decPrim_encPrim e (known_size st) items.length
            ((items.map (tyEnc e elem)).flatten ++ rest) hmode
          have hvn := vecDecN_append (tyDec e .none elem) (tyEnc e elem) items rest hdecI
          simp only [tyEnc, tyDec, Bool.false_eq_true, if_false, List.append_assoc, hdp, hvn]
        | true =>
          simp only [if_true, Bool.and_eq_true, decide_eq_true_eq, Bool.true_eq] at hmode
          obtain ⟨hfit, hposall⟩ := hmode
          have hpos : ∀ it ∈ items, 0 < tySize elem it := by
            intro it hit
            rw [List.all_eq_true] at hposall
            simpa using hposall it hit
          have hdp := decPrim_encPrim e (known_size st)
            (items.foldl (fun n it => n + tySize elem it) 0)
            ((items.map (tyEnc e elem)).flatten ++ rest) hfit
          have hvb := vecDecB_append (tyDec e .none elem) (tySize elem) (tyEnc e elem)
            items rest _ hdecI hpos (le_refl _)
          simp only [tyEnc, tyDec, if_true, List.append_assoc, hdp, hvb]
      | prim n => simp [goodVal] at hg
      | structV vs => simp [goodVal] at hg
      | varV i vs => simp [goodVal] at hg
    · intro d i kt fs vs rest hv hfa hg hkt
      simp [findArm] at hfa
    · intro d p0 fs' heq
      simp at heq
  | strukt fs ih =>
    refine ⟨?_, ?_, ?_⟩
    · intro v rest hv hg hs
      simp only [valid, Bool.and_eq_true] at hv
      obtain ⟨hfl, hvf⟩ := hv
      simp only [goodVal] at hg
      simp only [tyEnc, tyDec]
      exact ih.1 v rest hvf hg (isVarList_of_isFieldList hfl)
    · intro d i kt fs2 vs rest hv hfa hg hkt
      simp [findArm] at hfa
    · intro d p0 fs' heq
      simp at heq
  | enum tt vars ihv =>
    refine ⟨?_, ?_, ?_⟩
    · intro v rest hv hg hs
      simp only [valid, Bool.and_eq_true] at hv
      obtain ⟨⟨hL, hr⟩, hvv⟩ := hv
      cases v with
      | varV i vs =>
        simp only [goodVal, Bool.and_eq_true] at hg
        obtain ⟨hgv, hsel⟩ := hg
        obtain ⟨hi, hgf⟩ := goodVal_varV hL hvv hgv
        cases hkt : keepTagAt vars i with
        | false =>
          rw [hkt] at hsel
          simp only [Bool.false_eq_true, if_false] at hsel
          cases hta : tagAt vars i with
          | none => rw [hta] at hsel; simp at hsel
          | some tl =>
            rw [hta] at hsel
            simp only [beq_iff_eq] at hsel
            rw [Option.map_eq_some'] at hsel
            obtain ⟨⟨i2, kt2, fs2⟩, hfa, hieq⟩ := hsel
            simp only at hieq
            rw [hieq] at hfa
            obtain ⟨hkt2, hfs2, _⟩ := findArm_spec hfa
            rw [hkt] at hkt2
            subst hkt2
            have htl : tl < 256 ^ known_size tt := tagsInRange_tagAt hr hta
            have hdp := decPrim_encPrim e (known_size tt) tl
              (tyEnc e vars (.varV i vs) ++ rest) htl
            have harm := ihv.2.1 tl i false fs2 vs rest hvv hfa hgv
              (fun h => absurd h (by simp))
            simp only [Bool.false_eq_true, if_false] at harm
            simp only [tyEnc, tyDec, hkt, Bool.false_eq_true, if_false, hta, Option.getD_some,
              List.append_assoc, hdp, harm]
        | true =>
          rw [hkt] at hsel
          simp only [if_true, Bool.and_eq_true, beq_iff_eq] at hsel
          obtain ⟨hw, hd⟩ := hsel
          obtain ⟨p0, fs', hfsh, hpw⟩ := headPrimW_eq_some hw
          cases hhd : headDisc vs with
          | none => rw [hhd] at hd; simp at hd
          | some n0 =>
            rw [hhd] at hd
            simp only [beq_iff_eq] at hd
            rw [Option.map_eq_some'] at hd
            obtain ⟨⟨i2, kt2, fs2⟩, hfa, hieq⟩ := hd
            simp only at hieq
            rw [hieq] at hfa
            obtain ⟨hkt2, hfs2, _⟩ := findArm_spec hfa
            rw [hkt] at hkt2
            subst hkt2
            obtain ⟨vs', hvsh⟩ := headDisc_eq_some hhd
            have hgf2 : goodVal (.fcons (.prim p0) fs') (.structV (.prim n0 :: vs')) = true := by
              rw [← hfsh, ← hvsh]; exact hgf
            simp only [goodVal, Bool.and_eq_true, decide_eq_true_eq] at hgf2
            obtain ⟨hn0, hgfs'⟩ := hgf2
            have hvfs := valid_fieldsAt hvv hi
            rw [hfsh] at hvfs
            simp only [valid, Bool.and_eq_true] at hvfs
            obtain ⟨hflh, ⟨⟨⟨hty, hvp⟩, hflt⟩, hvt⟩⟩ := hvfs
            have hencv : tyEnc e vars (.varV i vs)
                = encPrim e (known_size p0) n0 ++ tyEnc e fs' (.structV vs') := by
              rw [tyEnc_varV e hi, hfsh, hvsh]
              simp [tyEnc]
            simp only [tyEnc, tyDec, hkt, if_true, List.nil_append, List.append_assoc]
            rw [hencv, List.append_assoc]
            rw [hpw] at hn0 ⊢
            rw [decPrim_encPrim e (known_size tt) n0 _ hn0]
            have hktshape : KTShape n0 fs2 vs := by
              refine ⟨p0, fs', vs', by rw [hfs2, hfsh], hvsh, hvt, hgfs', ?_⟩
              exact isVarList_of_isFieldList hflt
            have harm := ihv.2.1 n0 i true fs2 vs rest hvv hfa hgv (fun _ => hktshape)
            simp only [if_true] at harm
            have htail : tailF fs2 = fs' := by rw [hfs2, hfsh]; rfl
            have htailv : vs.tail = vs' := by rw [hvsh]; rfl
            rw [htail, htailv] at harm
            exact harm
      | prim n => simp [goodVal] at hg
      | vecV items => simp [goodVal] at hg
      | structV vs => simp [goodVal] at hg
    · intro d i kt fs vs rest hv hfa hg hkt
      simp [findArm] at hfa
    · intro d p0 fs' heq
      simp at heq
  | fnil =>
    refine ⟨?_, ?_, ?_⟩
    · intro v rest hv hg hs
      cases v with
      | structV vs =>
        cases vs with
        | nil => simp [tyEnc, tyDec]
        | cons a l => simp [goodVal] at hg
      | prim n => simp [goodVal] at hg
      | vecV items => simp [goodVal] at hg
      | varV i vs => simp [goodVal] at hg
    · intro d i kt fs vs rest hv hfa hg hkt
      simp [findArm] at hfa
    · intro d p0 fs' heq
      simp at heq
  | fcons t fs iht ihf =>
    refine ⟨?_, ?_, ?_⟩
    · intro v rest hv hg hs
      simp only [valid, Bool.and_eq_true] at hv
      obtain ⟨⟨⟨hty, hvt⟩, hfl⟩, hvf⟩ := hv
      cases v with
      | structV vs =>
        cases vs with
        | nil => simp [goodVal] at hg
        | cons v0 vtl =>
          simp only [goodVal, Bool.and_eq_true] at hg
          obtain ⟨hg0, hgt⟩ := hg
          have h0 := iht.1 v0 (tyEnc e fs (.structV vtl) ++ rest) hvt hg0
            (isVarList_of_isTypeLike hty)
          have h1 := ihf.1 (.structV vtl) rest hvf hgt (isVarList_of_isFieldList hfl)
          simp only [tyEnc, tyDec, List.append_assoc, h0, h1, asFields]
      | prim n => simp [goodVal] at hg
      | vecV items => simp [goodVal] at hg
      | varV i vs => simp [goodVal] at hg
    · intro d i kt fs2 vs rest hv hfa hg hkt
      simp [findArm] at hfa
    · intro d p0 fs' heq vs' rest hvf hgf hsf
      obtain ⟨rfl, rfl⟩ : t = .prim p0 ∧ fs = fs' := by
        injection heq with ha hb
        exact ⟨ha, hb⟩
      have h1 := ihf.1 (.structV vs') rest hvf hgf hsf
      simp only [tyDec, tyEnc, h1, asFields]
  | vnil =>
    refine ⟨?_, ?_, ?_⟩
    · intro v rest hv hg hs
      simp [goodVal] at hg
    · intro d i kt fs vs rest hv hfa hg hkt
      simp [findArm] at hfa
    · intro d p0 fs' heq
      simp at heq
  | vcons tag kt0 u fs0 rest0 ihf ihr =>
    refine ⟨?_, ?_, ?_⟩
    · intro v rest hv hg hs
      simp [isVarList] at hs
    · intro d i kt fs vs rest hv hfa hg hkt
      simp only [valid, Bool.and_eq_true] at hv
      obtain ⟨⟨⟨⟨⟨⟨⟨h1, h2⟩, h3⟩, h4⟩, h5⟩, h6⟩, h7⟩, h8⟩ := hv
      have hmain : ∀ hcond : armMatches tag d = true,
          i = 0 → kt = kt0 → fs = fs0 →
          tyDec e (.arm d) (.vcons tag kt0 u fs0 rest0)
              ((if kt then tyEnc e (tailF fs) (.structV vs.tail)
                else tyEnc e (.vcons tag kt0 u fs0 rest0) (.varV i vs)) ++ rest)
            = .ok (.varV i vs, rest) := by
        intro hcond hi hkteq hfseq
        subst hi; subst hkteq; subst hfseq
        have hgv : goodVal fs (.structV vs) = true := by simpa [goodVal] using hg
        cases kt with
        | false =>
          have hrtf := ihf.1 (.structV vs) rest h6 hgv (isVarList_of_isFieldList h5)
          simp only [Bool.false_eq_true, if_false, tyDec, hcond, if_true, tyEnc, hrtf,
            asFields]
        | true =>
          obtain ⟨p0, fs', vs', hfsh, hvsh, hvfs', hgfs', hsfs'⟩ := hkt rfl
          have htag := ihf.2.2 d p0 fs' hfsh vs' rest hvfs' hgfs' hsfs'
          have htail : tailF fs = fs' := by rw [hfsh]; rfl
          have htailv : vs.tail = vs' := by rw [hvsh]; rfl
          simp only [if_true, htail, htailv, tyDec, hcond, htag, asFields]
          rw [hvsh]
      match tag with
      | some t =>
        by_cases ht : t = d
        · subst ht
          simp only [findArm, if_pos rfl, Option.some.injEq] at hfa
          obtain ⟨hi0, hkt0, hfs0⟩ : 0 = i ∧ kt0 = kt ∧ fs0 = fs := by simpa using hfa
          exact hmain (by simp [armMatches]) hi0.symm hkt0.symm hfs0.symm
        · simp only [findArm, if_neg ht] at hfa
          rw [Option.map_eq_some'] at hfa
          obtain ⟨⟨j, k2, f2⟩, hfar, hieq⟩ := hfa
          simp only [Prod.mk.injEq] at hieq
          obtain ⟨hieq1, hieq2, hieq3⟩ : i = j + 1 ∧ kt = k2 ∧ fs = f2 := by
            exact ⟨hieq.1.symm, hieq.2.1.symm, hieq.2.2.symm⟩
          have hgr : goodVal rest0 (.varV j vs) = true := by
            rw [hieq1] at hg
            simpa [goodVal] using hg
          have hkt2 : k2 = true → KTShape d f2 vs := by
            rw [← hieq2, ← hieq3]; exact hkt
          have harm := ihr.2.1 d j k2 f2 vs rest h8 hfar hgr hkt2
          have hbeq : (t == d) = false := by simp [ht]
          rw [hieq1, hieq2, hieq3]
          cases k2 with
          | false =>
            simp only [Bool.false_eq_true, if_false] at harm ⊢
            have henc : tyEnc e (.vcons (some t) kt0 u fs0 rest0) (.varV (j + 1) vs)
                = tyEnc e rest0 (.varV j vs) := by simp [tyEnc]
            rw [henc]
            simp only [tyDec, armMatches_some, hbeq, Bool.false_eq_true, if_false, harm]
          | true =>
            simp only [if_true] at harm ⊢
            simp only [tyDec, armMatches_some, hbeq, Bool.false_eq_true, if_false, harm]
      | Option.none =>
        simp only [findArm, Option.some.injEq] at hfa
        obtain ⟨hi0, hkt0, hfs0⟩ : 0 = i ∧ kt0 = kt ∧ fs0 = fs := by simpa using hfa
        exact hmain rfl hi0.symm hkt0.symm hfs0.symm
    · intro d p0 fs' heq
      simp at heq

/-! ## Concrete schemas used by the claims

`exS`/`vS` is the spec's own concrete scenario: a record
`{a: u16 = 1, b: Vec<u8> with size_type u32 = [1,2,3], c: u32 = 5}`.
`exC1`/`vC1` is its sequence field alone.  `exB` is a record with one
`#[plod(size_type(u32), byte_sized)] Vec<i16>` field.  `exZ`/`vZ` is a
byte-sized sequence whose element type is an empty struct (encoded size `0`).
`varsE` is the variant list of a `#[plod(tag_type(u8))]` enum with a plain
variant `A` (tag 1, one `u8` field), a `keep_tag` variant `E` (tag 5, fields
`i8, u8`) and a trailing `keep_tag` default variant (fields `i8, u8`),
after the enum in the repository's own tests. -/

def exS : Ty :=
  .strukt (.fcons (.prim .u16)
    (.fcons (.vec .u32 false (.prim .u8))
      (.fcons (.prim .u32) .fnil)))

def vS : Val := .structV [.prim 1, .vecV [.prim 1, .prim 2, .prim 3], .prim 5]

def exC1 : Ty := .strukt (.fcons (.vec .u32 false (.prim .u8)) .fnil)

def vC1 : Val := .structV [.vecV [.prim 1, .prim 2, .prim 3]]

def exB : Ty := .strukt (.fcons (.vec .u32 true (.prim .i16)) .fnil)

def exZ : Ty := .strukt (.fcons (.vec .u8 true (.strukt .fnil)) .fnil)

def vZ : Val := .structV [.vecV [.structV []]]

def varsE : Ty :=
  .vcons (some 1) false false (.fcons (.prim .u8) .fnil)
    (.vcons (some 5) true false (.fcons (.prim .i8) (.fcons (.prim .u8) .fnil))
      (.vcons Option.none true false (.fcons (.prim .i8) (.fcons (.prim .u8) .fnil)) .vnil))

def exE : Ty := .enum .u8 varsE

def vE1 : Val := .varV 1 [.prim 5, .prim 2]

/-- The attribute state of a field declared
`#[plod(size_type(u16), byte_sized)]`. -/
def attrsW : Attributes :=
  ⟨Option.none, Option.none, false, Option.none, some .u16, true⟩

/-- A variant list with a non-terminal default: a tag-less `keep_tag` variant
followed by a further variant. -/
def varsBad : Ty :=
  .vcons Option.none true false (.fcons (.prim .u8) .fnil)
    (.vcons (some 1) false false .fnil .vnil)

/-- The schema of `#[plod(tag_type(u8))] enum { V }` — a single zero-field
variant with no tag-match rule. -/
def exC9 : Ty := .enum .u8 (.vcons Option.none false true .fnil .vnil)

/-! ## Claims -/

/-- C1: the claim states that the generated size operation always returns the
number of bytes the generated write produces, and that a sequence field's
size counts the length prefix plus the elements.  The code violates this:
the generated size of a count-prefixed `Vec` field is `self.field.len()` —
the element count, with no prefix width and no per-element sizes — while the
write emits the `size_type` prefix followed by the encoded elements.  At the
failing input (`{b: Vec<u8> = [1,2,3]}` with `size_type u32`) size returns
`3` but write produces `7` bytes. -/
theorem C1_size_write_mismatch :
    tySize exC1 vC1 = 3 ∧ (tyEnc .big exC1 vC1).length = 7 ∧ (3 : Nat) ≠ 7 :=
  ⟨rfl, rfl, by decide⟩

/-- C2 (counterexample): the round-trip claim fails as stated.  For the
record `{v: Vec<Empty> with size_type u8, byte_sized}` holding one element
of an empty (size-0) struct type, encode writes the byte budget `0` and the
element's zero bytes, and decode stops at budget `0` with the empty
sequence — the element is lost. -/
theorem C2_roundtrip_counterexample :
    tyDec .big .none exZ (tyEnc .big exZ vZ) ≠ .ok (vZ, []) := by
  intro hc
  have h : tyDec .big .none exZ (tyEnc .big exZ vZ) = .ok (.structV [.vecV []], []) := rfl
  rw [h] at hc
  simp [vZ] at hc

/-- C2 (amended): encoding then decoding returns the original value for every
value of a valid schema that satisfies the codec's side conditions
(`goodVal`): sequence prefixes that do not wrap their `size_type`, positive
element sizes in byte-sized sequences, and variants whose transmitted
discriminant selects them back (for `keep_tag` variants, a leading primitive
payload field as wide as the tag).  The round-trip holds recursively,
including through length-prefixed sequence fields, and with any trailing
bytes left intact. -/
theorem C2_roundtrip (e : Endian) (t : Ty) (v : Val) (rest : List Nat)
    (h1 : valid t = true) (h2 : goodVal t v = true) (h3 : isVarList t = false) :
    tyDec e .none t (tyEnc e t v ++ rest) = .ok (v, rest) :=
  (allRT e t).1 v rest h1 h2 h3

/-- C2 witness: the amended round-trip at the concrete `keep_tag` enum value
`E(5, 2)`. -/
theorem C2_roundtrip_witness :
    valid exE = true ∧ goodVal exE vE1 = true ∧ isVarList exE = false ∧
      tyDec .big .none exE (tyEnc .big exE vE1 ++ []) = .ok (vE1, []) :=
  ⟨by decide, by decide, by decide,
    C2_roundtrip .big exE vE1 [] (by decide) (by decide) (by decide)⟩

/-- C3 (counterexample): the claim's own byte listing
`00 01 | 00 00 00 03 | 01 02 03 | 00 00 00 05` is 13 bytes, not 16, and the
generated size of this record is `2 + len + 4 = 9` (the `Vec<u8>` field
contributes only its element count), not 16. -/
theorem C3_sixteen_is_wrong :
    (tyEnc .big exS vS).length ≠ 16 ∧ tySize exS vS ≠ 16 := by decide

/-- C3 (amended): the record `{a: u16 = 1, b: Vec<u8> size_type u32 =
[1,2,3], c: u32 = 5}` encoded big-endian produces exactly the bytes
`00 01 | 00 00 00 03 | 01 02 03 | 00 00 00 05`, 13 bytes in all, and the
generated size operation returns 9 on this value (it omits the 4-byte length
prefix — the C1 defect). -/
theorem C3_concrete_scenario :
    tyEnc .big exS vS = [0, 1, 0, 0, 0, 3, 1, 2, 3, 0, 0, 0, 5]
      ∧ (tyEnc .big exS vS).length = 13 ∧ tySize exS vS = 9 :=
  ⟨rfl, rfl, rfl⟩

/-- C4: the claim states a malformed byte budget yields a malformed-length
decode error.  The generated loop has no such check: decoding
`{v: Vec<i16> byte_sized u32}` from budget 3 followed by two whole elements
reads one element (2 bytes), then evaluates `size -= 2` on the remaining
budget 1 — a `usize` underflow, i.e. a panic in a debug build (wraparound
and stream over-read in release), never an error return.  The model's
`DErr.underflow` marks exactly that execution; no malformed-length error
value exists anywhere in the generated code. -/
theorem C4_byte_budget_underflow :
    tyDec .big .none exB [0, 0, 0, 3, 0, 1, 0, 1] = .error .underflow := rfl

/-- C5: decoding a sum type reads the discriminant with the declared tag
type, then selects the variant by the spec's rule — each declared tag-match
in declaration order, first match wins, else the declared default variant,
else the unrecognized-discriminant error (`BinaryError::InvalidChar` in the
generated code) — and decodes the selected payload (with the keep-tag
substitution when that variant keeps the tag). -/
theorem C5_discriminant_dispatch (e : Endian) (tt : PrimTy) (vars : Ty)
    (input : List Nat) (hv : valid (.enum tt vars) = true) :
    tyDec e .none (.enum tt vars) input =
      match decPrim e (known_size tt) input with
      | Option.none => .error .eof
      | some (d, r1) =>
        match specSelect vars d with
        | Option.none => .error .invalidChar
        | some (i, kt, fs) =>
          match tyDec e (if kt then .tagSub d else .none) fs r1 with
          | .error err => .error err
          | .ok (w, r2) => .ok (.varV i (asFields w), r2) := by
  simp only [valid, Bool.and_eq_true] at hv
  obtain ⟨⟨hL, hr⟩, hvv⟩ := hv
  simp only [tyDec]
  cases hdp : decPrim e (known_size tt) input with
  | none => rfl
  | some x =>
    obtain ⟨d, r1⟩ := x
    dsimp only
    rw [tyDec_arm e d vars r1 hL hvv, findArm_eq_specSelect d hvv]

/-- C5 witness: dispatch of the concrete enum at discriminant 9 (no literal
matches; the trailing default is selected). -/
theorem C5_discriminant_dispatch_witness :
    valid (.enum .u8 varsE) = true ∧
      tyDec .big .none (.enum .u8 varsE) [9, 7] =
        (match decPrim .big (known_size .u8) [9, 7] with
         | Option.none => .error .eof
         | some (d, r1) =>
           match specSelect varsE d with
           | Option.none => .error .invalidChar
           | some (i, kt, fs) =>
             match tyDec .big (if kt then .tagSub d else .none) fs r1 with
             | .error err => .error err
             | .ok (w, r2) => .ok (.varV i (asFields w), r2)) :=
  ⟨by decide, C5_discriminant_dispatch .big .u8 varsE [9, 7] (by decide)⟩

/-- C6: for a `keep_tag` variant, encode writes no separate discriminant
(the whole encoding is the payload's own bytes), the size counts the
discriminant zero extra times beyond the payload, and decode reconstructs
the first payload field as exactly the discriminant value just read — the
remaining fields decode from the stream position right after the
discriminant, so no additional bytes are consumed for that field. -/
theorem C6_keep_tag (e : Endian) (tt : PrimTy) (vars : Ty) (i : Nat)
    (vs : List Val) (d : Nat) (p0 : PrimTy) (fs0 : Ty) (input r1 : List Nat)
    (hL : isVarList vars = true) (hvv : valid vars = true)
    (hkt : keepTagAt vars i = true)
    (hdp : decPrim e (known_size tt) input = some (d, r1))
    (hfind : findArm vars d = some (i, true, .fcons (.prim p0) fs0)) :
    tyEnc e (.enum tt vars) (.varV i vs) = tyEnc e vars (.varV i vs)
    ∧ tySize (.enum tt vars) (.varV i vs) = tySize vars (.varV i vs)
    ∧ tyDec e .none (.enum tt vars) input =
        (match tyDec e .none fs0 r1 with
         | .error err => .error err
         | .ok (w, r2) => .ok (.varV i (.prim d :: asFields w), r2)) := by
  refine ⟨by simp [tyEnc, hkt], by simp [tySize, hkt], ?_⟩
  simp only [tyDec, hdp]
  rw [tyDec_arm e d vars r1 hL hvv, hfind]
  cases hres : tyDec e .none fs0 r1 with
  | error err => simp [tyDec, hres, asFields]
  | ok w =>
    obtain ⟨w1, r2⟩ := w
    simp [tyDec, hres, asFields]

/-- C6 witness: the concrete `keep_tag` variant `E` (tag 5) of the example
enum, decoded from the bytes `[5, 2]`. -/
theorem C6_keep_tag_witness :
    isVarList varsE = true ∧ valid varsE = true ∧ keepTagAt varsE 1 = true ∧
      decPrim .big (known_size .u8) [5, 2] = some (5, [2]) ∧
      findArm varsE 5 = some (1, true, .fcons (.prim .i8) (.fcons (.prim .u8) .fnil)) ∧
      (tyEnc .big (.enum .u8 varsE) (.varV 1 [.prim 5, .prim 2])
          = tyEnc .big varsE (.varV 1 [.prim 5, .prim 2])
        ∧ tySize (.enum .u8 varsE) (.varV 1 [.prim 5, .prim 2])
          = tySize varsE (.varV 1 [.prim 5, .prim 2])
        ∧ tyDec .big .none (.enum .u8 varsE) [5, 2] =
            (match tyDec .big .none (.fcons (.prim .u8) .fnil) [2] with
             | .error err => .error err
             | .ok (w, r2) => .ok (.varV 1 (.prim 5 :: asFields w), r2))) :=
  ⟨by decide, by decide, by decide, by decide, by decide,
    C6_keep_tag .big .u8 varsE 1 [.prim 5, .prim 2] 5 .i8 (.fcons (.prim .u8) .fnil)
      [5, 2] [2] (by decide) (by decide) (by decide) (by decide) (by decide)⟩

/-- C7: a sum type in which some variant without a tag-match rule is
followed by further variants (a non-terminal default, which also covers two
default variants) fails the derive-time checks — `valid` is false for the
schema, which models the compile error "The variant without
#[plod(tag(<value>)] must come last" raised in `plod_impl` before any codec
code is generated, so no decode or encode of such a schema ever starts. -/
theorem C7_nonterminal_default_rejected (tt : PrimTy) (vars : Ty)
    (h : hasEarlyDefault vars = true) : valid (.enum tt vars) = false := by
  suffices hs : valid vars = false by simp [valid, hs]
  induction vars with
  | vcons tag kt0 u fs0 rest ihf ihr =>
    match tag with
    | some t =>
      have h' : hasEarlyDefault rest = true := by simpa [hasEarlyDefault] using h
      simp [valid, ihr h']
    | Option.none =>
      simp only [hasEarlyDefault, Bool.or_eq_true] at h
      cases h with
      | inl h1 =>
        have h2 : isVnil rest = false := by simpa using h1
        simp [valid, h2]
      | inr h2 => simp [valid, ihr h2]
  | prim p => simp [hasEarlyDefault] at h
  | vec st bs elem ih => simp [hasEarlyDefault] at h
  | strukt fs ih => simp [hasEarlyDefault] at h
  | enum tt2 vars2 ih => simp [hasEarlyDefault] at h
  | fnil => simp [hasEarlyDefault] at h
  | fcons t fs iht ihf => simp [hasEarlyDefault] at h
  | vnil => simp [hasEarlyDefault] at h

/-- C7 witness: a tag-less variant followed by another variant is rejected. -/
theorem C7_nonterminal_default_witness :
    hasEarlyDefault varsBad = true ∧ valid (.enum .u8 varsBad) = false :=
  ⟨by decide, C7_nonterminal_default_rejected .u8 varsBad (by decide)⟩

/-- C8: for a record declaring a magic literal, decoding any stream whose
bytes at the magic's position differ from the declared constant fails with
the bad-magic decode error and produces no value; the encoding always begins
with the declared literal's bytes (so decoding an encoded record validates
the magic and proceeds to the body); and the size always includes the
magic's width. -/
theorem C8_magic (e : Endian) (p : PrimTy) (lit : Nat)
    (body : List Nat → Except DErr (Val × List Nat)) (input : List Nat)
    (d : Nat) (rest bodyBytes : List Nat) (bodySize : Nat)
    (hlit : lit < 256 ^ known_size p)
    (hread : decPrim e (known_size p) input = some (d, rest))
    (hne : d ≠ lit) :
    magicDec e p lit body input = .error .badMagic
    ∧ magicEnc e p lit bodyBytes = encPrim e (known_size p) lit ++ bodyBytes
    ∧ magicDec e p lit body (magicEnc e p lit bodyBytes) = body bodyBytes
    ∧ magicSize p bodySize = known_size p + bodySize := by
  refine ⟨?_, rfl, ?_, rfl⟩
  · simp [magicDec, hread, hne]
  · simp [magicDec, magicEnc, decPrim_encPrim e (known_size p) lit bodyBytes hlit]

/-- C8 witness: the test magic `0xbaba` on a `u16`, against a stream whose
first two bytes decode to `1`. -/
theorem C8_magic_witness :
    47802 < 256 ^ known_size .u16 ∧
      decPrim .big (known_size .u16) [0, 1] = some (1, []) ∧
      (1 : Nat) ≠ 47802 ∧
      (magicDec .big .u16 47802 (fun r => .ok (.prim 0, r)) [0, 1] = .error .badMagic
        ∧ magicEnc .big .u16 47802 [7] = encPrim .big (known_size .u16) 47802 ++ [7]
        ∧ magicDec .big .u16 47802 (fun r => .ok (.prim 0, r))
            (magicEnc .big .u16 47802 [7]) = .ok (.prim 0, [7])
        ∧ magicSize .u16 3 = known_size .u16 + 3) :=
  ⟨by decide, by decide, by decide,
    C8_magic .big .u16 47802 (fun r => .ok (.prim 0, r)) [0, 1] 1 [] [7] 3
      (by decide) (by decide) (by decide)⟩

/-- C9 (counterexample): the claim holds a zero-field variant with no
tag-match rule to be a valid schema; the derive rejects it — without
`keep_tag` a tag literal is mandatory for the variant's write arm, so
`valid` is false for the single-variant enum whose variant is a tag-less
unit variant. -/
theorem C9_default_unit_rejected : valid exC9 = false := by decide

/-- C9 (amended): a sum-type variant with neither a tag-match rule nor
`keep_tag` — in particular every zero-field default variant, since a unit
variant cannot carry `keep_tag` — is rejected at derive time
("#[plod(tag(<value>)] is mandatory without keep_tag"); no schema containing
one passes the derive-time checks. -/
theorem C9_tagless_requires_keep_tag (tt : PrimTy) (vars : Ty)
    (h : hasTaglessNoKeep vars = true) : valid (.enum tt vars) = false := by
  suffices hs : valid vars = false by simp [valid, hs]
  induction vars with
  | vcons tag kt0 u fs0 rest ihf ihr =>
    match tag, kt0 with
    | Option.none, false => simp [valid]
    | Option.none, true =>
      have h' : hasTaglessNoKeep rest = true := by simpa [hasTaglessNoKeep] using h
      simp [valid, ihr h']
    | some t, kt0 =>
      have h' : hasTaglessNoKeep rest = true := by simpa [hasTaglessNoKeep] using h
      simp [valid, ihr h']
  | prim p => simp [hasTaglessNoKeep] at h
  | vec st bs elem ih => simp [hasTaglessNoKeep] at h
  | strukt fs ih => simp [hasTaglessNoKeep] at h
  | enum tt2 vars2 ih => simp [hasTaglessNoKeep] at h
  | fnil => simp [hasTaglessNoKeep] at h
  | fcons t fs iht ihf => simp [hasTaglessNoKeep] at h
  | vnil => simp [hasTaglessNoKeep] at h

/-- C9 witness: the amended rejection at the concrete tag-less unit
variant. -/
theorem C9_tagless_witness :
    hasTaglessNoKeep (.vcons Option.none false true .fnil .vnil) = true
      ∧ valid (.enum .u8 (.vcons Option.none false true .fnil .vnil)) = false :=
  ⟨by decide,
    C9_tagless_requires_keep_tag .u8 (.vcons Option.none false true .fnil .vnil) (by decide)⟩

/-- C10: a `Vec` field's element codec is resolved with the field's own
attribute state passed through unchanged, so the inner sequence of a
`Vec<Vec<T>>` field uses the same `size_type` and the same `byte_sized` mode
as the outer field; the resolver offers no input through which the inner
sequence could be configured differently. -/
theorem C10_nested_vec_inherits (a : Attributes) (st : PrimTy) (inner : FieldTy)
    (h : a.size_type = some st) :
    resolveItem (.vecOf (.vecOf inner)) a
      = (resolveItem inner a).map
          (fun t => .vec st a.byte_sized (.vec st a.byte_sized t)) := by
  cases hres : resolveItem inner a with
  | none => simp [resolveItem, h, hres]
  | some t => simp [resolveItem, h, hres]

/-- C10 witness: `Vec<Vec<u8>>` under `#[plod(size_type(u16), byte_sized)]`
resolves with the inner sequence byte-sized under a `u16` prefix as well. -/
theorem C10_nested_vec_witness :
    attrsW.size_type = some .u16 ∧
      resolveItem (.vecOf (.vecOf (.path .u8))) attrsW
        = (resolveItem (.path .u8) attrsW).map
            (fun t => .vec .u16 attrsW.byte_sized (.vec .u16 attrsW.byte_sized t)) :=
  ⟨rfl, C10_nested_vec_inherits attrsW .u16 (.path .u8) rfl⟩

end Plod
